import Mathlib

/-!
Verification of the glide plugin extension, registration and command-routing
subsystem.  The Go sources are shallowly embedded: Go maps become association
lists over `String` keys, Go interface values that the compatibility bridge
inspects become the inductives `GoBase`/`GoVal`, fallible registrations return
the post-state of the registry together with an optional error message
(mirroring Go's in-place mutation plus `error` return), and the plugin-aware
executor is modelled over an abstract execute function.
-/

namespace Glide

/-- Association-list model of a Go map with string keys.  Lookup returns the
first binding; insertion overwrites the first binding for the key or appends a
fresh binding, matching Go map assignment (keys are unique in every map the
embedded code constructs). -/
abbrev SMap (α : Type) : Type := List (String × α)

namespace SMap

/-- Lookup of a key, Go `m[k]` with its presence bit. -/
def find? {α : Type} : SMap α → String → Option α
  | [], _ => none
  | (k', v) :: rest, k => if k' = k then some v else find? rest k

/-- Assignment `m[k] = v` for a Go map. -/
def insert {α : Type} : SMap α → String → α → SMap α
  | [], k, v => [(k, v)]
  | (k', v') :: rest, k, v =>
      if k' = k then (k, v) :: rest else (k', v') :: insert rest k v

/-- The list of keys of the map. -/
def keys {α : Type} (m : SMap α) : List String := m.map Prod.fst

end SMap

/-- Modelled from the spec: the per-container status record stored in the
mapping of container name to status; its concrete Go definition lives outside
the provided sources and the compatibility bridge never inspects it. -/
structure ContainerStatus where
  state : String
deriving DecidableEq, Repr

/-- Dynamic Go value (interface value) at the leaf level: the compatibility
bridge's inner type assertions distinguish string slices, strings, booleans
and container-status maps; every other dynamic type is an uninspected tagged value here. -/
inductive GoBase : Type where
  | strList : List String → GoBase
  | str : String → GoBase
  | bool : Bool → GoBase
  | statusMap : SMap ContainerStatus → GoBase
  | otherDyn : String → GoBase
deriving DecidableEq, Repr

/-- Dynamic Go value stored in an extensions map: either a string-keyed
dictionary (the shape the docker entry carries) or any leaf value. -/
inductive GoVal : Type where
  | base : GoBase → GoVal
  | dict : SMap GoBase → GoVal
deriving DecidableEq, Repr

/-- ProjectContext restricted to the fields the compatibility bridge touches:
the generic extension map (a nil-able Go map) and the legacy docker fields. -/
structure ProjectContext where
  Extensions : Option (SMap GoVal)
  ComposeFiles : List String
  ComposeOverride : String
  DockerRunning : Bool
  ContainersStatus : SMap ContainerStatus
deriving DecidableEq, Repr

/-- Go type assertion of the form v.([]string) on an optional map value. -/
def asStrList : Option GoBase → Option (List String)
  | some (.strList l) => some l
  | _ => none

/-- Go type assertion of the form v.(string). -/
def asStr : Option GoBase → Option String
  | some (.str s) => some s
  | _ => none

/-- Go type assertion of the form v.(bool). -/
def asBool : Option GoBase → Option Bool
  | some (.bool b) => some b
  | _ => none

/-- Go type assertion of the form v.(map[string]ContainerStatus). -/
def asStatusMap : Option GoBase → Option (SMap ContainerStatus)
  | some (.statusMap m) => some m
  | _ => none

/-- PopulateCompatibilityFields from internal/context/compatibility.go: copies
the well-typed docker extension entries into the legacy fields; a missing or
ill-typed entry leaves the corresponding legacy field untouched. -/
def PopulateCompatibilityFields (ctx : ProjectContext) : ProjectContext :=
  match ctx.Extensions with
  | none => ctx
  | some exts =>
    match exts.find? "docker" with
    | none => ctx
    | some dockerData =>
      match dockerData with
      | .dict dockerCtx =>
          { ctx with
            ComposeFiles :=
              (asStrList (dockerCtx.find? "compose_files")).getD ctx.ComposeFiles,
            ComposeOverride :=
              (asStr (dockerCtx.find? "compose_override")).getD ctx.ComposeOverride,
            DockerRunning :=
              (asBool (dockerCtx.find? "docker_running")).getD ctx.DockerRunning,
            ContainersStatus :=
              (asStatusMap (dockerCtx.find? "containers_status")).getD ctx.ContainersStatus }
      | _ => ctx

/-- Dict-building block of UpdateExtensionsFromCompatibility: the fresh
docker entry assembled from exactly the populated legacy fields; the
docker_running key is always written. -/
def buildDockerCtx (cf : List String) (co : String) (dr : Bool)
    (cs : SMap ContainerStatus) : SMap GoBase :=
  let dockerCtx : SMap GoBase := []
  let dockerCtx :=
    if !cf.isEmpty then dockerCtx.insert "compose_files" (.strList cf)
    else dockerCtx
  let dockerCtx :=
    if co != "" then dockerCtx.insert "compose_override" (.str co)
    else dockerCtx
  let dockerCtx := dockerCtx.insert "docker_running" (.bool dr)
  if !cs.isEmpty then dockerCtx.insert "containers_status" (.statusMap cs)
  else dockerCtx

/-- UpdateExtensionsFromCompatibility from internal/context/compatibility.go:
allocates the extension map when nil, and when any legacy docker field is
non-default replaces the docker entry with one rebuilt from the legacy
fields via buildDockerCtx. -/
def UpdateExtensionsFromCompatibility (ctx : ProjectContext) : ProjectContext :=
  let exts : SMap GoVal :=
    match ctx.Extensions with
    | none => []
    | some e => e
  let hasDockerData : Bool :=
    (!ctx.ComposeFiles.isEmpty) || (ctx.ComposeOverride != "") ||
      ctx.DockerRunning || (!ctx.ContainersStatus.isEmpty)
  if !hasDockerData then { ctx with Extensions := some exts }
  else
    { ctx with
      Extensions := some (exts.insert "docker"
        (.dict (buildDockerCtx ctx.ComposeFiles ctx.ComposeOverride
          ctx.DockerRunning ctx.ContainersStatus))) }

/-- Plugin metadata as consulted by the registry: the declared aliases. -/
structure PluginMetadata where
  Aliases : List String
deriving DecidableEq, Repr

/-- Observations of the Plugin interface that pkg/plugin/registry.go uses:
the primary name and the metadata carrying the alias list. -/
structure Plugin where
  Name : String
  Metadata : PluginMetadata
deriving DecidableEq, Repr

/-- Plugin registry state: the plugin map and the alias-to-name map. -/
structure Registry where
  plugins : SMap Plugin
  aliases : SMap String
deriving DecidableEq, Repr

/-- Alias-conflict check loop of Registry.Register: each declared alias is
checked against the existing plugin map and then the existing alias map,
returning the first conflict error. -/
def checkAliases (r : Registry) : List String → Option String
  | [] => none
  | a :: rest =>
      if (r.plugins.find? a).isSome then
        some "plugin alias conflicts with existing plugin"
      else if (r.aliases.find? a).isSome then
        some "plugin alias already registered"
      else checkAliases r rest

/-- Registry.Register from pkg/plugin/registry.go.  The result pairs the
post-state of the registry with the optional error, mirroring Go's in-place
mutation: every failing check returns before any mutation happens, and on
success the plugin is stored under its name and every alias points to that
name. -/
def Registry.Register (r : Registry) (p : Option Plugin) : Registry × Option String :=
  match p with
  | none => (r, some "cannot register nil plugin")
  | some p =>
      let name := p.Name
      if name = "" then (r, some "plugin must have a name")
      else if (r.plugins.find? name).isSome then
        (r, some "plugin already registered")
      else if (r.aliases.find? name).isSome then
        (r, some "plugin name conflicts with existing alias")
      else
        match checkAliases r p.Metadata.Aliases with
        | some e => (r, some e)
        | none =>
            (⟨r.plugins.insert name p,
              p.Metadata.Aliases.foldl (fun acc a => acc.insert a name) r.aliases⟩,
              none)

/-- Registry.Get from pkg/plugin/registry.go: direct name lookup first, then
one-level alias resolution; the boolean is Go's found flag (on the alias path
Go returns the flag true together with whatever the plugin map holds for the
canonical name). -/
def Registry.Get (r : Registry) (name : String) : Option Plugin × Bool :=
  match r.plugins.find? name with
  | some p => (some p, true)
  | none =>
      match r.aliases.find? name with
      | some canonicalName => (r.plugins.find? canonicalName, true)
      | none => (none, false)

/-- Sequence of Register calls, stopping at the first failure (the shape in
which a sequence of registrations reaches the registry). -/
def RegisterAll (r : Registry) : List Plugin → Registry × Option String
  | [] => (r, none)
  | p :: rest =>
      match Registry.Register r (some p) with
      | (r', none) => RegisterAll r' rest
      | (r', some e) => (r', some e)

/-- Primary name and aliases a plugin claims in the registry. -/
def pluginKeys (p : Plugin) : List String := p.Name :: p.Metadata.Aliases

/-- All names and aliases claimed by a list of plugins. -/
def allKeys (ps : List Plugin) : List String := ps.flatMap pluginKeys

/-- Primary names claimed by a list of plugins. -/
def namesOf (ps : List Plugin) : List String := ps.map Plugin.Name

/-- Aliases claimed by a list of plugins. -/
def aliasesOf (ps : List Plugin) : List String :=
  ps.flatMap (fun p => p.Metadata.Aliases)

/-- ContextExtension from pkg/plugin/sdk/extensions.go, with the methods the
embedded code calls: the name, Detect producing Go's (data, error) pair (nil
data is the none case), and Merge producing either merged data or an
error. -/
structure ContextExtension where
  Name : String
  Detect : String → Option GoVal × Option String
  Merge : GoVal → GoVal → Except String GoVal

/-- Extension registry state from pkg/plugin/sdk/extensions.go. -/
structure ExtensionRegistry where
  extensions : SMap ContextExtension

/-- ExtensionRegistry.Register: nil extension is a silent no-op, an empty
name fails with ErrInvalidExtensionName, and otherwise the extension is
stored under its name, silently overwriting any previous registration. -/
def ExtensionRegistry.Register (r : ExtensionRegistry)
    (ext : Option ContextExtension) : ExtensionRegistry × Option String :=
  match ext with
  | none => (r, none)
  | some ext =>
      if ext.Name = "" then (r, some "extension name cannot be empty")
      else (⟨r.extensions.insert ext.Name ext⟩, none)

/-- Detection loop of ExtensionRegistry.DetectAll: a Detect error skips the
extension, nil data is never stored, otherwise the data is stored under the
registration name. -/
def detectAllLoop (root : String) :
    SMap ContextExtension → SMap GoVal → SMap GoVal
  | [], results => results
  | (name, ext) :: rest, results =>
      let (data, err) := ext.Detect root
      if err.isSome then detectAllLoop root rest results
      else
        match data with
        | some d => detectAllLoop root rest (results.insert name d)
        | none => detectAllLoop root rest results

/-- ExtensionRegistry.DetectAll: runs detection for every registered
extension over the project root and always returns a nil error. -/
def ExtensionRegistry.DetectAll (r : ExtensionRegistry) (root : String) :
    SMap GoVal × Option String :=
  (detectAllLoop root r.extensions [], none)

/-- Loop of MergeExtensionData over the extension list, carrying the result
set built so far: a name present in both the result set and dataMap is
merged through the extension's Merge (an error aborts the whole call), a
name present only in dataMap is copied as-is. -/
def mergeLoop :
    List ContextExtension → SMap GoVal → SMap GoVal → Except String (SMap GoVal)
  | [], _, result => .ok result
  | ext :: rest, dataMap, result =>
      match SMap.find? result ext.Name with
      | some existing =>
          match SMap.find? dataMap ext.Name with
          | some newData =>
              match ext.Merge existing newData with
              | .error e => .error e
              | .ok merged => mergeLoop rest dataMap (result.insert ext.Name merged)
          | none => mergeLoop rest dataMap result
      | none =>
          match SMap.find? dataMap ext.Name with
          | some d => mergeLoop rest dataMap (result.insert ext.Name d)
          | none => mergeLoop rest dataMap result

/-- MergeExtensionData from pkg/plugin/sdk/extensions.go: folds the merge
loop over the extensions starting from an empty result set. -/
def MergeExtensionData (extensions : List ContextExtension)
    (dataMap : SMap GoVal) : Except String (SMap GoVal) :=
  mergeLoop extensions dataMap []

/-- Scenario extension used as detection input: detects compose data for the
root named proj and nil data elsewhere, never erring. -/
def dockerScenarioExt : ContextExtension :=
  ⟨"docker",
    fun root =>
      (if root = "proj" then
        some (.dict [("compose_files", GoBase.strList ["docker-compose.yml"])])
      else none, none),
    fun _ b => .ok b⟩

/-- Scenario extension whose detection always fails with an error. -/
def brokenScenarioExt : ContextExtension :=
  ⟨"broken", fun _ => (none, some "boom"), fun _ b => .ok b⟩

/-- Scenario registry holding the two scenario extensions. -/
def scenarioRegistry : ExtensionRegistry :=
  ⟨[("docker", dockerScenarioExt), ("broken", brokenScenarioExt)]⟩

/-- Modelled from the spec: the shell invocation request (program, ordered
arguments, environment, working directory, stdio mode); the Go file defining
the Command struct is not among the provided sources. -/
structure Command where
  Program : String
  Args : List String
  Env : SMap String
  Dir : String
  Capture : Bool
deriving DecidableEq, Repr

/-- Modelled from the spec: constructor for a command whose output is
captured. -/
def NewCommand (name : String) (args : List String) : Command :=
  ⟨name, args, [], "", true⟩

/-- Modelled from the spec: constructor for a command whose stdio is
inherited from the process (passthrough mode). -/
def NewPassthroughCommand (name : String) (args : List String) : Command :=
  ⟨name, args, [], "", false⟩

/-- ExecutorProvider interface observations used by internal/shell/registry.go
and plugin_aware.go: the unique name and the CanHandle predicate. -/
structure ExecutorProvider where
  Name : String
  CanHandle : Command → Bool

/-- Executor provider registry state from internal/shell/registry.go. -/
structure ExecutorRegistry where
  providers : SMap ExecutorProvider

/-- ExecutorRegistry.Register: nil provider is a silent no-op, an empty name
fails, a name already taken fails and the previously registered provider
stays in place; otherwise the provider is stored under its name. -/
def ExecutorRegistry.Register (r : ExecutorRegistry)
    (provider : Option ExecutorProvider) : ExecutorRegistry × Option String :=
  match provider with
  | none => (r, none)
  | some provider =>
      if provider.Name = "" then
        (r, some "executor provider name cannot be empty")
      else if (SMap.find? r.providers provider.Name).isSome then
        (r, some "executor provider already registered")
      else (⟨r.providers.insert provider.Name provider⟩, none)

/-- Iteration of ExecutorRegistry.FindProvider over the provider map: the
first provider whose CanHandle accepts the command. -/
def findProviderLoop (cmd : Command) :
    SMap ExecutorProvider → Option ExecutorProvider
  | [] => none
  | (_, provider) :: rest =>
      if provider.CanHandle cmd then some provider
      else findProviderLoop cmd rest

/-- ExecutorRegistry.FindProvider from internal/shell/registry.go. -/
def ExecutorRegistry.FindProvider (r : ExecutorRegistry) (cmd : Command) :
    Option ExecutorProvider :=
  findProviderLoop cmd r.providers

/-- Result of one command execution as consumed by Run and RunCapture:
captured output, exit code and the optional execution error. -/
structure Result where
  Stdout : String
  Stderr : String
  ExitCode : Int
  Error : Option String
deriving DecidableEq, Repr

/-- PluginAwareExecutor reduced to the Execute observation that Run and
RunCapture consume: Execute produces Go's (*Result, error) pair (the result
is total here, matching the executor convention that a non-nil result is
returned whenever Run dereferences it); whether the command was routed to a
provider executor or the standard executor is internal to Execute. -/
structure PluginAwareExecutor where
  Execute : Command → Result × Option String

/-- PluginAwareExecutor.Run from internal/shell/plugin_aware.go, line by
line: an Execute error is returned; a result carrying an error returns that
error; a result with non-zero exit code returns result.Error (which is nil
on that path); otherwise nil. -/
def PluginAwareExecutor.Run (e : PluginAwareExecutor) (name : String)
    (args : List String) : Option String :=
  let cmd := NewPassthroughCommand name args
  let (result, err) := e.Execute cmd
  match err with
  | some er => some er
  | none =>
      if result.Error.isSome then result.Error
      else if result.ExitCode != 0 then result.Error
      else none

/-- PluginAwareExecutor.RunCapture from internal/shell/plugin_aware.go, line
by line: returns the captured output together with the optional error. -/
def PluginAwareExecutor.RunCapture (e : PluginAwareExecutor) (name : String)
    (args : List String) : String × Option String :=
  let cmd := NewCommand name args
  let (result, err) := e.Execute cmd
  match err with
  | some er => ("", some er)
  | none =>
      if result.Error.isSome then ("", result.Error)
      else if result.ExitCode != 0 then (result.Stderr, result.Error)
      else (result.Stdout, none)

/-- Modelled from the spec: the executor contract that a non-zero exit
status is surfaced as an error-carrying result (the standard executor's
implementing Go file is not among the provided sources; the spec states
that invocation failures reach the routing layer as error-carrying
results). -/
def SurfacesNonZeroExit (e : PluginAwareExecutor) : Prop :=
  ∀ cmd, (e.Execute cmd).2 = none → (e.Execute cmd).1.ExitCode ≠ 0 →
    ((e.Execute cmd).1.Error).isSome = true

/-- Scenario executor provider handling docker commands. -/
def dockerProviderW : ExecutorProvider :=
  ⟨"docker", fun c => c.Program == "docker"⟩

/-!
Theorems.  General lemmas about the association-list map first, then the
claim theorems with their witnesses and counterexamples.
-/

namespace SMap

theorem keys_cons {α : Type} (k : String) (v : α) (rest : SMap α) :
    keys ((k, v) :: rest) = k :: keys rest := rfl

theorem find?_insert_self {α : Type} (m : SMap α) (k : String) (v : α) :
    (m.insert k v).find? k = some v := by
  induction m with
  | nil => simp [insert, find?]
  | cons p rest ih =>
      obtain ⟨k', v'⟩ := p
      by_cases h : k' = k <;> simp [insert, find?, h, ih]

theorem find?_insert_ne {α : Type} (m : SMap α) (k k' : String) (v : α)
    (h : k ≠ k') : (m.insert k v).find? k' = m.find? k' := by
  induction m with
  | nil => simp [insert, find?, h]
  | cons p rest ih =>
      obtain ⟨k₀, v₀⟩ := p
      by_cases h0 : k₀ = k
      · subst h0
        simp [insert, find?, h]
      · simp [insert, find?, h0, ih]

theorem insert_insert {α : Type} (m : SMap α) (k : String) (v : α) :
    (m.insert k v).insert k v = m.insert k v := by
  induction m with
  | nil => simp [insert]
  | cons p rest ih =>
      obtain ⟨k', v'⟩ := p
      by_cases h : k' = k <;> simp [insert, h, ih]

theorem find?_eq_none_iff {α : Type} (m : SMap α) (k : String) :
    m.find? k = none ↔ k ∉ m.keys := by
  induction m with
  | nil => simp [find?, keys]
  | cons p rest ih =>
      obtain ⟨k', v'⟩ := p
      by_cases h : k' = k
      · subst h
        simp [find?, keys_cons]
      · simp only [find?, if_neg h, keys_cons, List.mem_cons]
        rw [ih]
        constructor
        · intro hk hor
          rcases hor with h1 | h2
          · exact h h1.symm
          · exact hk h2
        · intro hk h2
          exact hk (Or.inr h2)

theorem find?_eq_none_of_not_mem {α : Type} {m : SMap α} {k : String}
    (h : k ∉ m.keys) : m.find? k = none :=
  (find?_eq_none_iff m k).mpr h

theorem insert_of_not_mem {α : Type} {m : SMap α} {k : String} (v : α)
    (h : k ∉ m.keys) : m.insert k v = m ++ [(k, v)] := by
  induction m with
  | nil => simp [insert]
  | cons p rest ih =>
      obtain ⟨k', v'⟩ := p
      rw [keys_cons, List.mem_cons] at h
      push_neg at h
      have hne : ¬(k' = k) := fun hk => h.1 hk.symm
      simp [insert, if_neg hne, ih h.2]

theorem find?_append {α : Type} (m m' : SMap α) (k : String) :
    (m ++ m').find? k = ((m.find? k).or (m'.find? k)) := by
  induction m with
  | nil => simp [find?]
  | cons p rest ih =>
      obtain ⟨k', v'⟩ := p
      by_cases h : k' = k <;> simp [find?, h, ih]

theorem mem_keys_of_find? {α : Type} {m : SMap α} {k : String} {v : α}
    (h : m.find? k = some v) : k ∈ m.keys := by
  induction m with
  | nil => simp [find?] at h
  | cons p rest ih =>
      obtain ⟨k', v'⟩ := p
      by_cases hk : k' = k
      · subst hk
        simp [keys_cons]
      · rw [find?, if_neg hk] at h
        simp [keys_cons, ih h]

theorem keys_append {α : Type} (m m' : SMap α) :
    (m ++ m').keys = m.keys ++ m'.keys := List.map_append _ _ _

theorem keys_map_pair {α : Type} (as : List String) (n : α) :
    SMap.keys (as.map (fun a => (a, n))) = as := by
  induction as with
  | nil => rfl
  | cons b bs ih => simp [keys] at ih ⊢; exact ih

theorem find?_map_pair {α : Type} (n : α) :
    ∀ (as : List String) (a : String), a ∈ as →
      (SMap.find? (as.map (fun x => (x, n))) a = some n) := by
  intro as
  induction as with
  | nil => intro a h; simp at h
  | cons b bs ih =>
      intro a h
      by_cases hb : b = a
      · subst hb
        simp [find?]
      · rcases List.mem_cons.mp h with h' | h'
        · exact absurd h'.symm hb
        · simpa [find?, hb] using ih a h'

end SMap

theorem getD_getD {α : Type} (o : Option α) (a : α) :
    o.getD (o.getD a) = o.getD a := by
  cases o <;> rfl

lemma buildDockerCtx_find?_compose_files (cf : List String) (co : String)
    (dr : Bool) (cs : SMap ContainerStatus) :
    (buildDockerCtx cf co dr cs).find? "compose_files" =
      if !cf.isEmpty then some (GoBase.strList cf) else none := by
  unfold buildDockerCtx
  by_cases h1 : (!cf.isEmpty) = true <;> by_cases h2 : (co != "") = true <;>
    by_cases h3 : (!cs.isEmpty) = true <;>
    simp [h1, h2, h3, SMap.find?_insert_self, SMap.find?_insert_ne, SMap.find?]

lemma buildDockerCtx_find?_compose_override (cf : List String) (co : String)
    (dr : Bool) (cs : SMap ContainerStatus) :
    (buildDockerCtx cf co dr cs).find? "compose_override" =
      if co != "" then some (GoBase.str co) else none := by
  unfold buildDockerCtx
  by_cases h1 : (!cf.isEmpty) = true <;> by_cases h2 : (co != "") = true <;>
    by_cases h3 : (!cs.isEmpty) = true <;>
    simp [h1, h2, h3, SMap.find?_insert_self, SMap.find?_insert_ne, SMap.find?]

lemma buildDockerCtx_find?_docker_running (cf : List String) (co : String)
    (dr : Bool) (cs : SMap ContainerStatus) :
    (buildDockerCtx cf co dr cs).find? "docker_running" =
      some (GoBase.bool dr) := by
  unfold buildDockerCtx
  by_cases h1 : (!cf.isEmpty) = true <;> by_cases h2 : (co != "") = true <;>
    by_cases h3 : (!cs.isEmpty) = true <;>
    simp [h1, h2, h3, SMap.find?_insert_self, SMap.find?_insert_ne, SMap.find?]

lemma buildDockerCtx_find?_containers_status (cf : List String) (co : String)
    (dr : Bool) (cs : SMap ContainerStatus) :
    (buildDockerCtx cf co dr cs).find? "containers_status" =
      if !cs.isEmpty then some (GoBase.statusMap cs) else none := by
  unfold buildDockerCtx
  by_cases h1 : (!cf.isEmpty) = true <;> by_cases h2 : (co != "") = true <;>
    by_cases h3 : (!cs.isEmpty) = true <;>
    simp [h1, h2, h3, SMap.find?_insert_self, SMap.find?_insert_ne, SMap.find?]

lemma populate_idem (ctx : ProjectContext) :
    PopulateCompatibilityFields (PopulateCompatibilityFields ctx) =
      PopulateCompatibilityFields ctx := by
  obtain ⟨ext, cf, co, dr, cs⟩ := ctx
  cases ext with
  | none => rfl
  | some exts =>
      cases hd : exts.find? "docker" with
      | none => simp [PopulateCompatibilityFields, hd]
      | some v =>
          cases v with
          | base b => simp [PopulateCompatibilityFields, hd]
          | dict m => simp [PopulateCompatibilityFields, hd, getD_getD]

lemma update_idem (ctx : ProjectContext) :
    UpdateExtensionsFromCompatibility (UpdateExtensionsFromCompatibility ctx) =
      UpdateExtensionsFromCompatibility ctx := by
  obtain ⟨ext, cf, co, dr, cs⟩ := ctx
  by_cases hD : ((!cf.isEmpty) || (co != "") || dr || (!cs.isEmpty)) = true
  · cases ext <;>
      simp [UpdateExtensionsFromCompatibility, hD, SMap.insert_insert]
  · cases ext <;>
      simp [UpdateExtensionsFromCompatibility, hD]

lemma asStrList_map (o : Option (List String)) :
    asStrList (o.map GoBase.strList) = o := by cases o <;> rfl

lemma asStr_map (o : Option String) :
    asStr (o.map GoBase.str) = o := by cases o <;> rfl

lemma asBool_map (o : Option Bool) :
    asBool (o.map GoBase.bool) = o := by cases o <;> rfl

lemma asStatusMap_map (o : Option (SMap ContainerStatus)) :
    asStatusMap (o.map GoBase.statusMap) = o := by cases o <;> rfl

/-- C3: both compatibility bridge functions are idempotent: for every project
context, applying PopulateCompatibilityFields twice in a row yields the same
context as applying it once, and likewise for
UpdateExtensionsFromCompatibility. -/
theorem compatibility_bridge_idempotent :
    ∀ ctx : ProjectContext,
      PopulateCompatibilityFields (PopulateCompatibilityFields ctx) =
        PopulateCompatibilityFields ctx ∧
      UpdateExtensionsFromCompatibility (UpdateExtensionsFromCompatibility ctx) =
        UpdateExtensionsFromCompatibility ctx :=
  fun ctx => ⟨populate_idem ctx, update_idem ctx⟩

/-- C2 counterexample: for the well-formed extension map that maps docker to
a dictionary holding only compose_files, the populate-then-update round trip
materialises a docker_running key that was absent from the input dictionary,
so the round trip does not preserve which legacy-tracked keys are present
versus absent. -/
theorem roundtrip_presence_counterexample :
    (SMap.find? [("compose_files", GoBase.strList ["a.yml"])] "docker_running"
      = none) ∧
    ((UpdateExtensionsFromCompatibility (PopulateCompatibilityFields
        ⟨some [("docker", GoVal.dict [("compose_files", GoBase.strList ["a.yml"])])],
          [], "", false, []⟩)).Extensions =
      some [("docker", GoVal.dict [("compose_files", GoBase.strList ["a.yml"]),
        ("docker_running", GoBase.bool false)])]) := by
  exact ⟨by decide, by decide⟩

/-- C2 amended: for any well-formed docker extension dictionary on a context
whose legacy fields are default, the round trip reproduces the value of every
legacy-tracked key that carries non-default data (and the docker_running
value whenever that key is present), and leaves the docker entry completely
unchanged when no legacy-tracked key carries non-default data; presence of
the docker_running key and of default-valued keys is not preserved. -/
theorem roundtrip_amended
    (exts : SMap GoVal) (m : SMap GoBase)
    (cfO : Option (List String)) (coO : Option String)
    (drO : Option Bool) (csO : Option (SMap ContainerStatus))
    (hdock : exts.find? "docker" = some (GoVal.dict m))
    (h1 : m.find? "compose_files" = cfO.map GoBase.strList)
    (h2 : m.find? "compose_override" = coO.map GoBase.str)
    (h3 : m.find? "docker_running" = drO.map GoBase.bool)
    (h4 : m.find? "containers_status" = csO.map GoBase.statusMap) :
    ∃ m' : SMap GoBase,
      ((UpdateExtensionsFromCompatibility (PopulateCompatibilityFields
          ⟨some exts, [], "", false, []⟩)).Extensions.getD []).find? "docker"
        = some (GoVal.dict m') ∧
      (∀ l, cfO = some l → l ≠ [] →
        m'.find? "compose_files" = some (GoBase.strList l)) ∧
      (∀ s, coO = some s → s ≠ "" →
        m'.find? "compose_override" = some (GoBase.str s)) ∧
      (∀ b, drO = some b →
        m'.find? "docker_running" = some (GoBase.bool b)) ∧
      (∀ c, csO = some c → c ≠ [] →
        m'.find? "containers_status" = some (GoBase.statusMap c)) ∧
      ((cfO.getD []).isEmpty = true → coO.getD "" = "" →
        drO.getD false = false → (csO.getD []).isEmpty = true → m' = m) := by
  have hpop : PopulateCompatibilityFields ⟨some exts, [], "", false, []⟩ =
      ⟨some exts, cfO.getD [], coO.getD "", drO.getD false, csO.getD []⟩ := by
    simp [PopulateCompatibilityFields, hdock, h1, h2, h3, h4,
      asStrList_map, asStr_map, asBool_map, asStatusMap_map]
  rw [hpop]
  cases hHas : ((!(cfO.getD ([] : List String)).isEmpty) ||
      ((coO.getD "") != "") || drO.getD false ||
      (!(csO.getD ([] : SMap ContainerStatus)).isEmpty)) with
  | true =>
      refine ⟨buildDockerCtx (cfO.getD []) (coO.getD "") (drO.getD false)
        (csO.getD []), ?_, ?_, ?_, ?_, ?_, ?_⟩
      · simp [UpdateExtensionsFromCompatibility, hHas, SMap.find?_insert_self]
      · intro l hl hlne
        subst hl
        rw [buildDockerCtx_find?_compose_files]
        simp [List.isEmpty_iff, hlne]
      · intro s hs hsne
        subst hs
        rw [buildDockerCtx_find?_compose_override]
        simp [hsne]
      · intro b hb
        subst hb
        rw [buildDockerCtx_find?_docker_running]
        rfl
      · intro c hc hcne
        subst hc
        rw [buildDockerCtx_find?_containers_status]
        simp [List.isEmpty_iff, hcne]
      · intro hcf hco hdr hcs
        rw [hcf, hco, hdr, hcs] at hHas
        simp at hHas
  | false =>
      refine ⟨m, ?_, ?_, ?_, ?_, ?_, ?_⟩
      · simp [UpdateExtensionsFromCompatibility, hHas, hdock]
      · intro l hl _
        subst hl
        simpa using h1
      · intro s hs _
        subst hs
        simpa using h2
      · intro b hb
        subst hb
        simpa using h3
      · intro c hc _
        subst hc
        simpa using h4
      · intro _ _ _ _
        rfl

/-- Witness for the amended round-trip theorem at a concrete well-formed
docker extension dictionary carrying a true docker_running flag. -/
theorem roundtrip_amended_witness :
    (SMap.find? [("docker", GoVal.dict [("docker_running", GoBase.bool true)])]
        "docker" = some (GoVal.dict [("docker_running", GoBase.bool true)])) ∧
    (SMap.find? [("docker_running", GoBase.bool true)] "compose_files" =
      Option.map GoBase.strList none) ∧
    (SMap.find? [("docker_running", GoBase.bool true)] "compose_override" =
      Option.map GoBase.str none) ∧
    (SMap.find? [("docker_running", GoBase.bool true)] "docker_running" =
      Option.map GoBase.bool (some true)) ∧
    (SMap.find? [("docker_running", GoBase.bool true)] "containers_status" =
      Option.map GoBase.statusMap none) ∧
    (∃ m' : SMap GoBase,
      ((UpdateExtensionsFromCompatibility (PopulateCompatibilityFields
          ⟨some [("docker", GoVal.dict [("docker_running", GoBase.bool true)])],
            [], "", false, []⟩)).Extensions.getD []).find? "docker"
        = some (GoVal.dict m') ∧
      (∀ l, (none : Option (List String)) = some l → l ≠ [] →
        m'.find? "compose_files" = some (GoBase.strList l)) ∧
      (∀ s, (none : Option String) = some s → s ≠ "" →
        m'.find? "compose_override" = some (GoBase.str s)) ∧
      (∀ b, (some true : Option Bool) = some b →
        m'.find? "docker_running" = some (GoBase.bool b)) ∧
      (∀ c, (none : Option (SMap ContainerStatus)) = some c → c ≠ [] →
        m'.find? "containers_status" = some (GoBase.statusMap c)) ∧
      (((none : Option (List String)).getD []).isEmpty = true →
        (none : Option String).getD "" = "" →
        (some true : Option Bool).getD false = false →
        ((none : Option (SMap ContainerStatus)).getD []).isEmpty = true →
        m' = [("docker_running", GoBase.bool true)])) :=
  ⟨by decide, by decide, by decide, by decide, by decide,
    roundtrip_amended
      [("docker", GoVal.dict [("docker_running", GoBase.bool true)])]
      [("docker_running", GoBase.bool true)]
      none none (some true) none
      (by decide) (by decide) (by decide) (by decide) (by decide)⟩

/-- C1: plugin registration is all-or-nothing: whenever Register reports an
error (nil plugin, empty name, duplicate name, name colliding with an alias,
or any alias colliding with an existing name or alias), the plugin map and
the alias map of the registry are exactly what they were before the call. -/
theorem register_failure_atomic :
    ∀ (r : Registry) (p : Option Plugin),
      (Registry.Register r p).2.isSome = true → (Registry.Register r p).1 = r := by
  intro r p h
  cases p with
  | none => rfl
  | some p =>
      by_cases hn : p.Name = ""
      · simp [Registry.Register, hn]
      · by_cases hp : (SMap.find? r.plugins p.Name).isSome
        · simp [Registry.Register, hn, hp]
        · by_cases ha : (SMap.find? r.aliases p.Name).isSome
          · simp [Registry.Register, hn, hp, ha]
          · cases hc : checkAliases r p.Metadata.Aliases with
            | some e => simp [Registry.Register, hn, hp, ha, hc]
            | none => simp [Registry.Register, hn, hp, ha, hc] at h

/-- Witness for register_failure_atomic: registering a plugin whose name
collides with an already-registered alias fails and leaves both maps of the
registry untouched. -/
theorem register_failure_atomic_witness :
    ((Registry.Register
        ⟨[("docker", ⟨"docker", ⟨["d"]⟩⟩)], [("d", "docker")]⟩
        (some ⟨"d", ⟨[]⟩⟩)).2.isSome = true) ∧
    (Registry.Register
        ⟨[("docker", ⟨"docker", ⟨["d"]⟩⟩)], [("d", "docker")]⟩
        (some ⟨"d", ⟨[]⟩⟩)).1 =
      (⟨[("docker", ⟨"docker", ⟨["d"]⟩⟩)], [("d", "docker")]⟩ : Registry) :=
  ⟨by decide,
    register_failure_atomic
      ⟨[("docker", ⟨"docker", ⟨["d"]⟩⟩)], [("d", "docker")]⟩
      (some ⟨"d", ⟨[]⟩⟩) (by decide)⟩

lemma checkAliases_none (r : Registry) :
    ∀ as : List String,
      (∀ a ∈ as, SMap.find? r.plugins a = none ∧ SMap.find? r.aliases a = none) →
      checkAliases r as = none := by
  intro as
  induction as with
  | nil => intro _; rfl
  | cons a rest ih =>
      intro h
      have ha := h a (List.mem_cons_self a rest)
      simp [checkAliases, ha.1, ha.2]
      exact ih fun b hb => h b (List.mem_cons_of_mem a hb)

lemma foldl_insert_fresh (n : String) :
    ∀ (as : List String) (al : SMap String),
      (∀ a ∈ as, a ∉ al.keys) → as.Nodup →
      as.foldl (fun acc a => acc.insert a n) al =
        al ++ as.map (fun a => (a, n)) := by
  intro as
  induction as with
  | nil => intro al _ _; simp
  | cons a rest ih =>
      intro al hfresh hnd
      have ha : a ∉ al.keys := hfresh a (List.mem_cons_self a rest)
      have hstep : al.insert a n = al ++ [(a, n)] :=
        SMap.insert_of_not_mem n ha
      have hfresh' : ∀ b ∈ rest, b ∉ (al ++ [(a, n)]).keys := by
        intro b hb
        rw [SMap.keys_append]
        intro hmem
        rcases List.mem_append.mp hmem with h1 | h1
        · exact hfresh b (List.mem_cons_of_mem a hb) h1
        · have hba : b = a := by simpa [SMap.keys] using h1
          exact (List.nodup_cons.mp hnd).1 (hba ▸ hb)
      calc (a :: rest).foldl (fun acc x => acc.insert x n) al
          = rest.foldl (fun acc x => acc.insert x n) (al.insert a n) := rfl
        _ = rest.foldl (fun acc x => acc.insert x n) (al ++ [(a, n)]) := by
              rw [hstep]
        _ = (al ++ [(a, n)]) ++ rest.map (fun x => (x, n)) :=
              ih (al ++ [(a, n)]) hfresh' (List.nodup_cons.mp hnd).2
        _ = al ++ ((a, n) :: rest.map (fun x => (x, n))) := by
              simp

lemma allKeys_cons (p : Plugin) (ps : List Plugin) :
    allKeys (p :: ps) = pluginKeys p ++ allKeys ps := by
  simp [allKeys]

lemma mem_allKeys_of_name {ps : List Plugin} {p : Plugin} (h : p ∈ ps) :
    p.Name ∈ allKeys ps := by
  simp only [allKeys, List.mem_flatMap]
  exact ⟨p, h, by simp [pluginKeys]⟩

lemma mem_allKeys_of_alias {ps : List Plugin} {p : Plugin} {a : String}
    (h : p ∈ ps) (ha : a ∈ p.Metadata.Aliases) : a ∈ allKeys ps := by
  simp only [allKeys, List.mem_flatMap]
  exact ⟨p, h, by simp [pluginKeys, ha]⟩

lemma mem_allKeys_of_namesOf {ps : List Plugin} {s : String}
    (h : s ∈ namesOf ps) : s ∈ allKeys ps := by
  simp only [namesOf, List.mem_map] at h
  obtain ⟨p, hp, rfl⟩ := h
  exact mem_allKeys_of_name hp

lemma mem_allKeys_of_aliasesOf {ps : List Plugin} {s : String}
    (h : s ∈ aliasesOf ps) : s ∈ allKeys ps := by
  simp only [aliasesOf, List.mem_flatMap] at h
  obtain ⟨p, hp, ha⟩ := h
  exact mem_allKeys_of_alias hp ha

lemma name_alias_disjoint :
    ∀ ps : List Plugin, (allKeys ps).Nodup →
      ∀ p ∈ ps, ∀ a ∈ p.Metadata.Aliases, a ∉ namesOf ps := by
  intro ps
  induction ps with
  | nil => intro _ p hp; simp at hp
  | cons q rest ih =>
      intro hnd p hp a ha hmem
      rw [allKeys_cons, List.nodup_append] at hnd
      obtain ⟨hq, hrest, hdisj⟩ := hnd
      rw [namesOf, List.map_cons, List.mem_cons] at hmem
      rcases List.mem_cons.mp hp with hpq | hpr
      · subst hpq
        rcases hmem with h1 | h1
        · rw [pluginKeys, List.nodup_cons] at hq
          exact hq.1 (h1 ▸ ha)
        · exact hdisj (by simp [pluginKeys, ha])
            (mem_allKeys_of_namesOf h1)
      · rcases hmem with h1 | h1
        · exact hdisj (by simp [pluginKeys, h1])
            (mem_allKeys_of_alias hpr ha)
        · exact ih hrest p hpr a ha h1

lemma registerAll_invariant :
    ∀ (ps : List Plugin) (r : Registry) (used : List String),
      (∀ p ∈ ps, p.Name ≠ "") →
      (∀ k ∈ SMap.keys r.plugins, k ∈ used) →
      (∀ k ∈ SMap.keys r.aliases, k ∈ used) →
      (used ++ allKeys ps).Nodup →
      (RegisterAll r ps).2 = none ∧
      (∀ s v, SMap.find? r.plugins s = some v →
        SMap.find? (RegisterAll r ps).1.plugins s = some v) ∧
      (∀ s, SMap.find? r.plugins s = none → s ∉ namesOf ps →
        SMap.find? (RegisterAll r ps).1.plugins s = none) ∧
      (∀ s v, SMap.find? r.aliases s = some v →
        SMap.find? (RegisterAll r ps).1.aliases s = some v) ∧
      (∀ s, SMap.find? r.aliases s = none → s ∉ aliasesOf ps →
        SMap.find? (RegisterAll r ps).1.aliases s = none) ∧
      (∀ p ∈ ps, SMap.find? (RegisterAll r ps).1.plugins p.Name = some p) ∧
      (∀ p ∈ ps, ∀ a ∈ p.Metadata.Aliases,
        SMap.find? (RegisterAll r ps).1.aliases a = some p.Name) := by
  intro ps
  induction ps with
  | nil =>
      intro r used _ _ _ _
      exact ⟨rfl, fun s v h => h, fun s h _ => h, fun s v h => h,
        fun s h _ => h, fun p hp => absurd hp (List.not_mem_nil p),
        fun p hp => absurd hp (List.not_mem_nil p)⟩
  | cons p rest ih =>
      intro r used hnm hpl hal hnd
      rw [allKeys_cons, ← List.append_assoc] at hnd
      have hnd0 : (used ++ pluginKeys p).Nodup ∧
          (allKeys rest).Nodup ∧
          (used ++ pluginKeys p).Disjoint (allKeys rest) :=
        List.nodup_append.mp hnd
      have hndA : used.Nodup ∧ (pluginKeys p).Nodup ∧
          used.Disjoint (pluginKeys p) :=
        List.nodup_append.mp hnd0.1
      have hKnd : (p.Name :: p.Metadata.Aliases).Nodup := hndA.2.1
      have hNameAl : p.Name ∉ p.Metadata.Aliases := (List.nodup_cons.mp hKnd).1
      have hAlNd : p.Metadata.Aliases.Nodup := (List.nodup_cons.mp hKnd).2
      have hNameUsed : p.Name ∉ used := by
        intro hmem
        exact hndA.2.2 hmem (by simp [pluginKeys])
      have hAlUsed : ∀ a ∈ p.Metadata.Aliases, a ∉ used := by
        intro a ha hmem
        exact hndA.2.2 hmem (by simp [pluginKeys, ha])
      have hplNK : p.Name ∉ SMap.keys r.plugins := fun h => hNameUsed (hpl _ h)
      have halNK : p.Name ∉ SMap.keys r.aliases := fun h => hNameUsed (hal _ h)
      have hplN : SMap.find? r.plugins p.Name = none :=
        SMap.find?_eq_none_of_not_mem hplNK
      have halN : SMap.find? r.aliases p.Name = none :=
        SMap.find?_eq_none_of_not_mem halNK
      have hAlFresh : ∀ a ∈ p.Metadata.Aliases,
          a ∉ SMap.keys r.plugins ∧ a ∉ SMap.keys r.aliases := by
        intro a ha
        exact ⟨fun h => hAlUsed a ha (hpl _ h), fun h => hAlUsed a ha (hal _ h)⟩
      have hchk : checkAliases r p.Metadata.Aliases = none := by
        refine checkAliases_none r _ (fun a ha => ?_)
        exact ⟨SMap.find?_eq_none_of_not_mem (hAlFresh a ha).1,
          SMap.find?_eq_none_of_not_mem (hAlFresh a ha).2⟩
      have hfold : p.Metadata.Aliases.foldl (fun acc a => acc.insert a p.Name)
          r.aliases =
          r.aliases ++ p.Metadata.Aliases.map (fun a => (a, p.Name)) :=
        foldl_insert_fresh p.Name _ _ (fun a ha => (hAlFresh a ha).2) hAlNd
      have hne : p.Name ≠ "" := hnm p (List.mem_cons_self p rest)
      have hreg : Registry.Register r (some p) =
          (⟨r.plugins.insert p.Name p,
            r.aliases ++ p.Metadata.Aliases.map (fun a => (a, p.Name))⟩,
            none) := by
        simp [Registry.Register, hne, hplN, halN, hchk, hfold]
      have hstep : RegisterAll r (p :: rest) =
          RegisterAll ⟨r.plugins.insert p.Name p,
            r.aliases ++ p.Metadata.Aliases.map (fun a => (a, p.Name))⟩ rest := by
        simp [RegisterAll, hreg]
      have hplins : r.plugins.insert p.Name p = r.plugins ++ [(p.Name, p)] :=
        SMap.insert_of_not_mem p hplNK
      have hpl' : ∀ k ∈ SMap.keys (r.plugins.insert p.Name p),
          k ∈ used ++ pluginKeys p := by
        intro k hk
        rw [hplins, SMap.keys_append] at hk
        rcases List.mem_append.mp hk with h1 | h1
        · exact List.mem_append_left _ (hpl _ h1)
        · have : k = p.Name := by simpa [SMap.keys] using h1
          exact List.mem_append_right _ (by simp [pluginKeys, this])
      have hal' : ∀ k ∈ SMap.keys
          (r.aliases ++ p.Metadata.Aliases.map (fun a => (a, p.Name))),
          k ∈ used ++ pluginKeys p := by
        intro k hk
        rw [SMap.keys_append, SMap.keys_map_pair] at hk
        rcases List.mem_append.mp hk with h1 | h1
        · exact List.mem_append_left _ (hal _ h1)
        · exact List.mem_append_right _ (by simp [pluginKeys, h1])
      have hnd' : ((used ++ pluginKeys p) ++ allKeys rest).Nodup := hnd
      obtain ⟨ih1, ih2, ih3, ih4, ih5, ih6, ih7⟩ :=
        ih ⟨r.plugins.insert p.Name p,
          r.aliases ++ p.Metadata.Aliases.map (fun a => (a, p.Name))⟩
          (used ++ pluginKeys p)
          (fun q hq => hnm q (List.mem_cons_of_mem p hq)) hpl' hal' hnd'
      rw [hstep]
      refine ⟨ih1, ?_, ?_, ?_, ?_, ?_, ?_⟩
      · intro s v hs
        refine ih2 s v ?_
        have hsk : s ∈ SMap.keys r.plugins := SMap.mem_keys_of_find? hs
        have hsn : p.Name ≠ s := fun h => hplNK (h ▸ hsk)
        simpa [SMap.find?_insert_ne _ _ _ _ hsn] using hs
      · intro s hs hsn
        rw [namesOf, List.map_cons, List.mem_cons] at hsn
        push_neg at hsn
        refine ih3 s ?_ hsn.2
        have : p.Name ≠ s := fun h => hsn.1 h.symm
        simpa [SMap.find?_insert_ne _ _ _ _ this] using hs
      · intro s v hs
        refine ih4 s v ?_
        rw [SMap.find?_append, hs]
        rfl
      · intro s hs hsa
        rw [aliasesOf, List.flatMap_cons, List.mem_append] at hsa
        push_neg at hsa
        refine ih5 s ?_ (by simpa [aliasesOf] using hsa.2)
        rw [SMap.find?_append, hs]
        have : SMap.find? (p.Metadata.Aliases.map (fun a => (a, p.Name))) s
            = none := by
          refine SMap.find?_eq_none_of_not_mem ?_
          rw [SMap.keys_map_pair]
          exact hsa.1
        simp [this]
      · intro q hq
        rcases List.mem_cons.mp hq with h1 | h1
        · subst h1
          exact ih2 q.Name q (SMap.find?_insert_self _ _ _)
        · exact ih6 q h1
      · intro q hq a ha
        rcases List.mem_cons.mp hq with h1 | h1
        · subst h1
          refine ih4 a q.Name ?_
          rw [SMap.find?_append]
          have h0 : SMap.find? r.aliases a = none :=
            SMap.find?_eq_none_of_not_mem (hAlFresh a ha).2
          rw [h0, SMap.find?_map_pair q.Name _ _ ha]
          rfl
        · exact ih7 q h1 a ha

/-- C7: for every sequence of plugin registrations with pairwise distinct
non-empty names and non-overlapping aliases, the whole sequence succeeds,
every registered plugin is retrievable through Get by its primary name and by
each of its aliases, and Get on any string that is neither a name nor an
alias returns the not-found signal. -/
theorem registry_get_complete
    (ps : List Plugin)
    (hnm : ∀ p ∈ ps, p.Name ≠ "")
    (hnd : (allKeys ps).Nodup) :
    (RegisterAll ⟨[], []⟩ ps).2 = none ∧
    (∀ p ∈ ps,
      Registry.Get (RegisterAll ⟨[], []⟩ ps).1 p.Name = (some p, true) ∧
      ∀ a ∈ p.Metadata.Aliases,
        Registry.Get (RegisterAll ⟨[], []⟩ ps).1 a = (some p, true)) ∧
    (∀ s, s ∉ allKeys ps →
      Registry.Get (RegisterAll ⟨[], []⟩ ps).1 s = (none, false)) := by
  obtain ⟨h1, h2, h3, h4, h5, h6, h7⟩ :=
    registerAll_invariant ps ⟨[], []⟩ [] hnm
      (by simp [SMap.keys]) (by simp [SMap.keys]) (by simpa using hnd)
  refine ⟨h1, ?_, ?_⟩
  · intro p hp
    constructor
    · simp [Registry.Get, h6 p hp]
    · intro a ha
      have hpn : SMap.find? (RegisterAll ⟨[], []⟩ ps).1.plugins a = none :=
        h3 a rfl (name_alias_disjoint ps hnd p hp a ha)
      simp [Registry.Get, hpn, h7 p hp a ha, h6 p hp]
  · intro s hs
    have hp0 : SMap.find? (RegisterAll ⟨[], []⟩ ps).1.plugins s = none :=
      h3 s rfl (fun h => hs (mem_allKeys_of_namesOf h))
    have ha0 : SMap.find? (RegisterAll ⟨[], []⟩ ps).1.aliases s = none :=
      h5 s rfl (fun h => hs (mem_allKeys_of_aliasesOf h))
    simp [Registry.Get, hp0, ha0]

/-- Witness for registry_get_complete: registering docker (with alias d) and
git succeeds and both plugins are retrievable by name, docker also by its
alias, while an unrelated string is not found. -/
theorem registry_get_complete_witness :
    (∀ p ∈ [(⟨"docker", ⟨["d"]⟩⟩ : Plugin), ⟨"git", ⟨[]⟩⟩], p.Name ≠ "") ∧
    (allKeys [(⟨"docker", ⟨["d"]⟩⟩ : Plugin), ⟨"git", ⟨[]⟩⟩]).Nodup ∧
    ((RegisterAll ⟨[], []⟩
        [(⟨"docker", ⟨["d"]⟩⟩ : Plugin), ⟨"git", ⟨[]⟩⟩]).2 = none ∧
      (∀ p ∈ [(⟨"docker", ⟨["d"]⟩⟩ : Plugin), ⟨"git", ⟨[]⟩⟩],
        Registry.Get (RegisterAll ⟨[], []⟩
          [(⟨"docker", ⟨["d"]⟩⟩ : Plugin), ⟨"git", ⟨[]⟩⟩]).1 p.Name
          = (some p, true) ∧
        ∀ a ∈ p.Metadata.Aliases,
          Registry.Get (RegisterAll ⟨[], []⟩
            [(⟨"docker", ⟨["d"]⟩⟩ : Plugin), ⟨"git", ⟨[]⟩⟩]).1 a
            = (some p, true)) ∧
      (∀ s, s ∉ allKeys [(⟨"docker", ⟨["d"]⟩⟩ : Plugin), ⟨"git", ⟨[]⟩⟩] →
        Registry.Get (RegisterAll ⟨[], []⟩
          [(⟨"docker", ⟨["d"]⟩⟩ : Plugin), ⟨"git", ⟨[]⟩⟩]).1 s
          = (none, false))) :=
  ⟨by decide, by decide,
    registry_get_complete [⟨"docker", ⟨["d"]⟩⟩, ⟨"git", ⟨[]⟩⟩]
      (by decide) (by decide)⟩

lemma detectAllLoop_find?_not_mem (root : String) :
    ∀ (l : SMap ContextExtension) (acc : SMap GoVal) (s : String),
      s ∉ SMap.keys l →
      SMap.find? (detectAllLoop root l acc) s = SMap.find? acc s := by
  intro l
  induction l with
  | nil => intro acc s _; rfl
  | cons p rest ih =>
      obtain ⟨n, e⟩ := p
      intro acc s hs
      rw [SMap.keys_cons, List.mem_cons] at hs
      push_neg at hs
      have hne : n ≠ s := fun h => hs.1 h.symm
      rcases hd : e.Detect root with ⟨data, err⟩
      cases err with
      | some er => simp [detectAllLoop, hd, ih acc s hs.2]
      | none =>
          cases data with
          | some d =>
              simp [detectAllLoop, hd, ih _ s hs.2,
                SMap.find?_insert_ne _ _ _ _ hne]
          | none => simp [detectAllLoop, hd, ih acc s hs.2]

lemma detectAllLoop_skip (root : String) (name : String) (ext : ContextExtension)
    (hskip : (ext.Detect root).2.isSome = true ∨ (ext.Detect root).1 = none) :
    ∀ (l : SMap ContextExtension) (acc : SMap GoVal),
      (SMap.keys l).Nodup →
      SMap.find? acc name = none →
      SMap.find? l name = some ext →
      SMap.find? (detectAllLoop root l acc) name = none := by
  intro l
  induction l with
  | nil => intro acc _ _ hf; simp [SMap.find?] at hf
  | cons p rest ih =>
      obtain ⟨n, e⟩ := p
      intro acc hnd hacc hf
      rw [SMap.keys_cons, List.nodup_cons] at hnd
      by_cases hn : n = name
      · subst hn
        rw [SMap.find?, if_pos rfl] at hf
        injection hf with hf
        subst hf
        rcases hd : e.Detect root with ⟨data, err⟩
        rw [hd] at hskip
        have hrec : SMap.find? (detectAllLoop root rest acc) n =
            SMap.find? acc n :=
          detectAllLoop_find?_not_mem root rest acc n hnd.1
        cases err with
        | some er => simpa [detectAllLoop, hd, hrec] using hacc
        | none =>
            cases data with
            | some d => simp at hskip
            | none => simpa [detectAllLoop, hd, hrec] using hacc
      · rw [SMap.find?, if_neg hn] at hf
        rcases hd : e.Detect root with ⟨data, err⟩
        cases err with
        | some er => simpa [detectAllLoop, hd] using ih acc hnd.2 hacc hf
        | none =>
            cases data with
            | some d =>
                have hacc' : SMap.find? (acc.insert n d) name = none := by
                  rw [SMap.find?_insert_ne _ _ _ _ hn]
                  exact hacc
                simpa [detectAllLoop, hd] using
                  ih (acc.insert n d) hnd.2 hacc' hf
            | none => simpa [detectAllLoop, hd] using ih acc hnd.2 hacc hf

lemma detectAllLoop_store (root : String) (name : String)
    (ext : ContextExtension) (d : GoVal)
    (hdet : ext.Detect root = (some d, none)) :
    ∀ (l : SMap ContextExtension) (acc : SMap GoVal),
      (SMap.keys l).Nodup →
      SMap.find? l name = some ext →
      SMap.find? (detectAllLoop root l acc) name = some d := by
  intro l
  induction l with
  | nil => intro acc _ hf; simp [SMap.find?] at hf
  | cons p rest ih =>
      obtain ⟨n, e⟩ := p
      intro acc hnd hf
      rw [SMap.keys_cons, List.nodup_cons] at hnd
      by_cases hn : n = name
      · subst hn
        rw [SMap.find?, if_pos rfl] at hf
        injection hf with hf
        subst hf
        simp only [detectAllLoop, hdet, Option.isSome_none, Bool.false_eq_true,
          if_false]
        rw [detectAllLoop_find?_not_mem root rest _ n hnd.1,
          SMap.find?_insert_self]
      · rw [SMap.find?, if_neg hn] at hf
        rcases hd : e.Detect root with ⟨data, err⟩
        cases err with
        | some er => simpa [detectAllLoop, hd] using ih acc hnd.2 hf
        | none =>
            cases data with
            | some d0 =>
                simpa [detectAllLoop, hd] using ih (acc.insert n d0) hnd.2 hf
            | none => simpa [detectAllLoop, hd] using ih acc hnd.2 hf

/-- C6: detection is best-effort and isolating: for every registry of
extensions (with the usual unique registration names) and every project
root, an extension whose Detect errors or returns nil data contributes no
key to the DetectAll result and no error is surfaced; this does not abort
the other extensions: any extension whose Detect succeeds with non-nil data
has that data stored in the result mapping under its name. -/
theorem detectAll_isolating
    (r : ExtensionRegistry) (root : String) (name : String)
    (ext : ContextExtension)
    (hnd : (SMap.keys r.extensions).Nodup)
    (hfind : SMap.find? r.extensions name = some ext) :
    ((((ext.Detect root).2.isSome = true) ∨ (ext.Detect root).1 = none) →
      SMap.find? (r.DetectAll root).1 name = none) ∧
    (∀ d, ext.Detect root = (some d, none) →
      SMap.find? (r.DetectAll root).1 name = some d) ∧
    (r.DetectAll root).2 = none :=
  ⟨fun hskip =>
      detectAllLoop_skip root name ext hskip r.extensions [] hnd rfl hfind,
    fun d hdet =>
      detectAllLoop_store root name ext d hdet r.extensions [] hnd hfind,
    rfl⟩

/-- Witness for detectAll_isolating: over the two-extension scenario
registry, the broken extension errors for the proj root and contributes no
key there, yet the docker extension's successful detection for that same
root is stored in the mapping (detection of the others is not aborted);
for the empty root docker detects nil data and so contributes no key; and
DetectAll reports no error. -/
theorem detectAll_isolating_witness :
    ((SMap.keys scenarioRegistry.extensions).Nodup) ∧
    (SMap.find? scenarioRegistry.extensions "docker" = some dockerScenarioExt) ∧
    (SMap.find? scenarioRegistry.extensions "broken" = some brokenScenarioExt) ∧
    (((dockerScenarioExt.Detect "empty").2.isSome = true) ∨
      (dockerScenarioExt.Detect "empty").1 = none) ∧
    (((brokenScenarioExt.Detect "proj").2.isSome = true) ∨
      (brokenScenarioExt.Detect "proj").1 = none) ∧
    (dockerScenarioExt.Detect "proj" =
      (some (GoVal.dict [("compose_files",
        GoBase.strList ["docker-compose.yml"])]), none)) ∧
    (SMap.find? (scenarioRegistry.DetectAll "empty").1 "docker" = none) ∧
    (SMap.find? (scenarioRegistry.DetectAll "proj").1 "broken" = none) ∧
    (SMap.find? (scenarioRegistry.DetectAll "proj").1 "docker" =
      some (GoVal.dict [("compose_files",
        GoBase.strList ["docker-compose.yml"])])) ∧
    ((scenarioRegistry.DetectAll "proj").2 = none) := by
  refine ⟨by decide, rfl, rfl, by decide, by decide, by decide, ?_, ?_, ?_, rfl⟩
  · exact (detectAll_isolating scenarioRegistry "empty" "docker"
      dockerScenarioExt (by decide) rfl).1 (by decide)
  · exact (detectAll_isolating scenarioRegistry "proj" "broken"
      brokenScenarioExt (by decide) rfl).1 (by decide)
  · exact (detectAll_isolating scenarioRegistry "proj" "docker"
      dockerScenarioExt (by decide) rfl).2.1
      (GoVal.dict [("compose_files", GoBase.strList ["docker-compose.yml"])])
      (by decide)

lemma mergeLoop_append :
    ∀ (pre l : List ContextExtension) (dm acc : SMap GoVal),
      mergeLoop (pre ++ l) dm acc =
        match mergeLoop pre dm acc with
        | .error e => .error e
        | .ok r => mergeLoop l dm r := by
  intro pre
  induction pre with
  | nil => intro l dm acc; rfl
  | cons ext rest ih =>
      intro l dm acc
      cases hr : SMap.find? acc ext.Name with
      | some existing =>
          cases hd : SMap.find? dm ext.Name with
          | some newData =>
              cases hm : ext.Merge existing newData with
              | error e => simp [mergeLoop, hr, hd, hm]
              | ok merged => simp [mergeLoop, hr, hd, hm, ih]
          | none => simp [mergeLoop, hr, hd, ih]
      | none =>
          cases hd : SMap.find? dm ext.Name with
          | some d => simp [mergeLoop, hr, hd, ih]
          | none => simp [mergeLoop, hr, hd, ih]

lemma mergeLoop_find?_preserved :
    ∀ (l : List ContextExtension) (dm acc final : SMap GoVal) (s : String),
      (∀ e ∈ l, e.Name ≠ s) →
      mergeLoop l dm acc = .ok final →
      SMap.find? final s = SMap.find? acc s := by
  intro l
  induction l with
  | nil =>
      intro dm acc final s _ h
      rw [mergeLoop] at h
      injection h with h
      rw [h]
  | cons ext rest ih =>
      intro dm acc final s hne h
      have hext : ext.Name ≠ s := hne ext (List.mem_cons_self ext rest)
      have hne' : ∀ e ∈ rest, e.Name ≠ s :=
        fun e he => hne e (List.mem_cons_of_mem ext he)
      cases hr : SMap.find? acc ext.Name with
      | some existing =>
          cases hd : SMap.find? dm ext.Name with
          | some newData =>
              cases hm : ext.Merge existing newData with
              | error e => simp [mergeLoop, hr, hd, hm] at h
              | ok merged =>
                  simp only [mergeLoop, hr, hd, hm] at h
                  rw [ih dm _ final s hne' h,
                    SMap.find?_insert_ne _ _ _ _ hext]
          | none =>
              simp only [mergeLoop, hr, hd] at h
              exact ih dm acc final s hne' h
      | none =>
          cases hd : SMap.find? dm ext.Name with
          | some d =>
              simp only [mergeLoop, hr, hd] at h
              rw [ih dm _ final s hne' h, SMap.find?_insert_ne _ _ _ _ hext]
          | none =>
              simp only [mergeLoop, hr, hd] at h
              exact ih dm acc final s hne' h

/-- C5: per-name behavior of MergeExtensionData.  With the result set built
from a prefix of the extension list, an extension whose name is present in
both that result set and dataMap has Merge invoked and the merged value
stored under the name in the final result, while an extension whose name is
present only in dataMap has the dataMap value taken as-is; in both cases no
later extension carries the same name. -/
theorem mergeExtensionData_per_name
    (pre rest : List ContextExtension) (ext : ContextExtension)
    (dataMap result final : SMap GoVal)
    (hpre : mergeLoop pre dataMap [] = Except.ok result)
    (hrest : ∀ e ∈ rest, e.Name ≠ ext.Name) :
    (∀ existing newData merged,
      SMap.find? result ext.Name = some existing →
      SMap.find? dataMap ext.Name = some newData →
      ext.Merge existing newData = Except.ok merged →
      MergeExtensionData (pre ++ ext :: rest) dataMap = Except.ok final →
      SMap.find? final ext.Name = some merged) ∧
    (∀ d,
      SMap.find? result ext.Name = none →
      SMap.find? dataMap ext.Name = some d →
      MergeExtensionData (pre ++ ext :: rest) dataMap = Except.ok final →
      SMap.find? final ext.Name = some d) := by
  constructor
  · intro existing newData merged hex hdm hm hrun
    rw [MergeExtensionData, mergeLoop_append, hpre] at hrun
    simp only [mergeLoop, hex, hdm, hm] at hrun
    rw [mergeLoop_find?_preserved rest dataMap _ final ext.Name hrest hrun,
      SMap.find?_insert_self]
  · intro d hex hdm hrun
    rw [MergeExtensionData, mergeLoop_append, hpre] at hrun
    simp only [mergeLoop, hex, hdm] at hrun
    rw [mergeLoop_find?_preserved rest dataMap _ final ext.Name hrest hrun,
      SMap.find?_insert_self]

/-- Witness for mergeExtensionData_per_name: with an empty prefix the docker
scenario extension's name occurs only in dataMap, and MergeExtensionData
copies the dataMap value for it as-is. -/
theorem mergeExtensionData_per_name_witness :
    (mergeLoop [] [("docker", GoVal.base (GoBase.str "v"))] [] =
      Except.ok ([] : SMap GoVal)) ∧
    (∀ e ∈ ([] : List ContextExtension), e.Name ≠ dockerScenarioExt.Name) ∧
    ((∀ existing newData merged,
      SMap.find? ([] : SMap GoVal) dockerScenarioExt.Name = some existing →
      SMap.find? [("docker", GoVal.base (GoBase.str "v"))]
        dockerScenarioExt.Name = some newData →
      dockerScenarioExt.Merge existing newData = Except.ok merged →
      MergeExtensionData ([] ++ dockerScenarioExt :: [])
        [("docker", GoVal.base (GoBase.str "v"))] = Except.ok
          [("docker", GoVal.base (GoBase.str "v"))] →
      SMap.find? [("docker", GoVal.base (GoBase.str "v"))]
        dockerScenarioExt.Name = some merged) ∧
    (∀ d,
      SMap.find? ([] : SMap GoVal) dockerScenarioExt.Name = none →
      SMap.find? [("docker", GoVal.base (GoBase.str "v"))]
        dockerScenarioExt.Name = some d →
      MergeExtensionData ([] ++ dockerScenarioExt :: [])
        [("docker", GoVal.base (GoBase.str "v"))] = Except.ok
          [("docker", GoVal.base (GoBase.str "v"))] →
      SMap.find? [("docker", GoVal.base (GoBase.str "v"))]
        dockerScenarioExt.Name = some d)) :=
  ⟨rfl, by simp,
    mergeExtensionData_per_name [] [] dockerScenarioExt
      [("docker", GoVal.base (GoBase.str "v"))] []
      [("docker", GoVal.base (GoBase.str "v"))] rfl (by simp)⟩

lemma findProviderLoop_none_iff (cmd : Command) :
    ∀ l : SMap ExecutorProvider,
      (findProviderLoop cmd l = none ↔
        ∀ e ∈ l, (e.2).CanHandle cmd = false) := by
  intro l
  induction l with
  | nil => simp [findProviderLoop]
  | cons p rest ih =>
      obtain ⟨n, q⟩ := p
      by_cases hq : q.CanHandle cmd <;>
        simp [findProviderLoop, hq, ih]

lemma findProviderLoop_some (cmd : Command) :
    ∀ (l : SMap ExecutorProvider) (p : ExecutorProvider),
      findProviderLoop cmd l = some p →
      (∃ n, (n, p) ∈ l) ∧ p.CanHandle cmd = true := by
  intro l
  induction l with
  | nil => intro p h; simp [findProviderLoop] at h
  | cons e rest ih =>
      obtain ⟨n, q⟩ := e
      intro p h
      by_cases hq : q.CanHandle cmd
      · rw [findProviderLoop, if_pos hq] at h
        injection h with h
        subst h
        exact ⟨⟨n, List.mem_cons_self _ _⟩, hq⟩
      · rw [findProviderLoop, if_neg hq] at h
        obtain ⟨⟨n', hmem⟩, hc⟩ := ih p h
        exact ⟨⟨n', List.mem_cons_of_mem _ hmem⟩, hc⟩

/-- C8: FindProvider returns nil exactly when no registered provider's
CanHandle accepts the command, and any provider it returns is registered
and has CanHandle true for the command. -/
theorem findProvider_correct (r : ExecutorRegistry) (cmd : Command) :
    (r.FindProvider cmd = none ↔
      ∀ e ∈ r.providers, (e.2).CanHandle cmd = false) ∧
    (∀ p, r.FindProvider cmd = some p →
      (∃ n, (n, p) ∈ r.providers) ∧ p.CanHandle cmd = true) :=
  ⟨findProviderLoop_none_iff cmd r.providers,
    fun p h => findProviderLoop_some cmd r.providers p h⟩

/-- Witness for findProvider_correct: a registry holding the docker provider
yields no provider for an ls command, and yields the docker provider (whose
predicate holds) for a docker command. -/
theorem findProvider_correct_witness :
    (∀ e ∈ [("docker", dockerProviderW)],
      (e.2).CanHandle (NewCommand "ls" []) = false) ∧
    (ExecutorRegistry.FindProvider ⟨[("docker", dockerProviderW)]⟩
      (NewCommand "ls" []) = none) ∧
    ((∃ n, (n, dockerProviderW) ∈ [("docker", dockerProviderW)]) ∧
      dockerProviderW.CanHandle (NewCommand "docker" ["ps"]) = true) :=
  ⟨by decide,
    (findProvider_correct ⟨[("docker", dockerProviderW)]⟩
      (NewCommand "ls" [])).1.mpr (by decide),
    (findProvider_correct ⟨[("docker", dockerProviderW)]⟩
      (NewCommand "docker" ["ps"])).2 dockerProviderW rfl⟩

/-- C9: executor provider registration enforces exclusive identity: an empty
provider name fails with an error and leaves the provider map unchanged, and
a provider whose name is already taken fails with an error, leaves the map
unchanged, and keeps the previously registered provider in place. -/
theorem executor_register_exclusive (r : ExecutorRegistry)
    (p : ExecutorProvider) :
    (p.Name = "" →
      (ExecutorRegistry.Register r (some p)).1 = r ∧
      (ExecutorRegistry.Register r (some p)).2.isSome = true) ∧
    (∀ q, SMap.find? r.providers p.Name = some q →
      (ExecutorRegistry.Register r (some p)).1 = r ∧
      (ExecutorRegistry.Register r (some p)).2.isSome = true ∧
      SMap.find? (ExecutorRegistry.Register r (some p)).1.providers p.Name
        = some q) := by
  constructor
  · intro hn
    simp [ExecutorRegistry.Register, hn]
  · intro q hq
    by_cases hn : p.Name = ""
    · simp [ExecutorRegistry.Register, hn, hn ▸ hq]
    · simp [ExecutorRegistry.Register, hn, hq]

/-- Witness for executor_register_exclusive: on a registry holding the
docker provider, registering an empty-named provider and re-registering the
docker name both fail, leave the registry unchanged, and keep the original
docker provider retrievable. -/
theorem executor_register_exclusive_witness :
    ((("" : String) = "") ∧
      (ExecutorRegistry.Register ⟨[("docker", dockerProviderW)]⟩
        (some ⟨"", fun _ => false⟩)).1 = ⟨[("docker", dockerProviderW)]⟩ ∧
      (ExecutorRegistry.Register ⟨[("docker", dockerProviderW)]⟩
        (some ⟨"", fun _ => false⟩)).2.isSome = true) ∧
    ((SMap.find? [("docker", dockerProviderW)] "docker" = some dockerProviderW) ∧
      (ExecutorRegistry.Register ⟨[("docker", dockerProviderW)]⟩
        (some ⟨"docker", fun _ => true⟩)).1 = ⟨[("docker", dockerProviderW)]⟩ ∧
      (ExecutorRegistry.Register ⟨[("docker", dockerProviderW)]⟩
        (some ⟨"docker", fun _ => true⟩)).2.isSome = true ∧
      SMap.find? (ExecutorRegistry.Register ⟨[("docker", dockerProviderW)]⟩
        (some ⟨"docker", fun _ => true⟩)).1.providers "docker"
        = some dockerProviderW) :=
  ⟨⟨rfl, (executor_register_exclusive _ ⟨"", fun _ => false⟩).1 rfl⟩,
    ⟨rfl, (executor_register_exclusive _ ⟨"docker", fun _ => true⟩).2
      dockerProviderW rfl⟩⟩

/-- C10: registering a nil value is a silent no-op on both the extension
registry and the executor provider registry (no error, contents unchanged),
in contrast with the plugin registry, which rejects a nil plugin with an
error while leaving its own state unchanged. -/
theorem register_nil_contrast :
    ∀ (rE : ExtensionRegistry) (rX : ExecutorRegistry) (rP : Registry),
      ExtensionRegistry.Register rE none = (rE, none) ∧
      ExecutorRegistry.Register rX none = (rX, none) ∧
      (Registry.Register rP none).1 = rP ∧
      (Registry.Register rP none).2.isSome = true :=
  fun _ _ _ => ⟨rfl, rfl, rfl, rfl⟩

/-- C4: under the executor contract that a non-zero exit status reaches the
routing layer as an error-carrying result, Run returns a non-nil error for
every execution whose result has a non-zero exit code, and both Run and
RunCapture return the executor's error value unchanged (whichever of the
two error channels carried it), never transforming or suppressing it. -/
theorem run_surfaces_failures (e : PluginAwareExecutor) (name : String)
    (args : List String) (hc : SurfacesNonZeroExit e) :
    ((e.Execute (NewPassthroughCommand name args)).2 = none →
      (e.Execute (NewPassthroughCommand name args)).1.ExitCode ≠ 0 →
      (e.Run name args).isSome = true) ∧
    (∀ er, (e.Execute (NewPassthroughCommand name args)).2 = some er →
      e.Run name args = some er) ∧
    (∀ er, (e.Execute (NewPassthroughCommand name args)).2 = none →
      (e.Execute (NewPassthroughCommand name args)).1.Error = some er →
      e.Run name args = some er) ∧
    (∀ er, (e.Execute (NewCommand name args)).2 = some er →
      (e.RunCapture name args).2 = some er) ∧
    (∀ er, (e.Execute (NewCommand name args)).2 = none →
      (e.Execute (NewCommand name args)).1.Error = some er →
      (e.RunCapture name args).2 = some er) := by
  refine ⟨?_, ?_, ?_, ?_, ?_⟩
  · intro hno hexit
    have herr := hc (NewPassthroughCommand name args) hno hexit
    rcases hx : e.Execute (NewPassthroughCommand name args) with ⟨res, err⟩
    rw [hx] at hno herr
    subst hno
    simp only [PluginAwareExecutor.Run, hx]
    simp [herr]
  · intro er hsome
    rcases hx : e.Execute (NewPassthroughCommand name args) with ⟨res, err⟩
    rw [hx] at hsome
    subst hsome
    simp [PluginAwareExecutor.Run, hx]
  · intro er hno herr
    rcases hx : e.Execute (NewPassthroughCommand name args) with ⟨res, err⟩
    rw [hx] at hno herr
    subst hno
    have herr2 : res.Error = some er := herr
    simp [PluginAwareExecutor.Run, hx, herr2]
  · intro er hsome
    rcases hx : e.Execute (NewCommand name args) with ⟨res, err⟩
    rw [hx] at hsome
    subst hsome
    simp [PluginAwareExecutor.RunCapture, hx]
  · intro er hno herr
    rcases hx : e.Execute (NewCommand name args) with ⟨res, err⟩
    rw [hx] at hno herr
    subst hno
    have herr2 : res.Error = some er := herr
    simp [PluginAwareExecutor.RunCapture, hx, herr2]

/-- Witness for run_surfaces_failures: an executor whose every invocation
reports exit status 1 through an error-carrying result satisfies the
contract, and Run surfaces that error. -/
theorem run_surfaces_failures_witness :
    (SurfacesNonZeroExit ⟨fun _ => (⟨"", "", 1, some "exit status 1"⟩, none)⟩) ∧
    ((PluginAwareExecutor.Execute
        ⟨fun _ => (⟨"", "", 1, some "exit status 1"⟩, none)⟩
        (NewPassthroughCommand "false" [])).2 = none →
      (PluginAwareExecutor.Execute
        ⟨fun _ => (⟨"", "", 1, some "exit status 1"⟩, none)⟩
        (NewPassthroughCommand "false" [])).1.ExitCode ≠ 0 →
      (PluginAwareExecutor.Run
        ⟨fun _ => (⟨"", "", 1, some "exit status 1"⟩, none)⟩
        "false" []).isSome = true) :=
  ⟨fun _ _ _ => rfl,
    ((run_surfaces_failures
      ⟨fun _ => (⟨"", "", 1, some "exit status 1"⟩, none)⟩
      "false" [] (fun _ _ _ => rfl)).1)⟩

end Glide
